import Mathlib

/-!
Verification of the credential configuration parser, builder and serializer of
the purpleclay/daggerverse repository.

Two modules are modelled:

* the `netrc` module (auto-login configuration files): the `Login` /
  `AutoLogin` / `Netrc` data model, the serializer `AutoLogin.String`
  (formats `compact` and `full`), the credential grammar
  (`eatIdent` / `fromConfiguration`, built on the chomp parser-combinator
  library) and the mutators `WithLogin` / `WithFile` plus the
  content-addressed secret naming of `AsSecret` (MD5);

* the `oci-login` module: the `ContainerAuth` / `OciLogin` model,
  `WithAuth` (base64 of `username:password`, last-write-wins map update),
  the JSON marshalling of `AsConfig` / `AsSecret` and its content-addressed
  secret naming.

Go strings of the netrc module are embedded as `List Char` (Go ranges over
runes when parsing); Go strings of the oci-login module are embedded as
`List Nat` byte sequences (base64, MD5 and JSON marshalling act on bytes).
Failure (Go `error` results and the nil-function-dereference panic of
`AutoLogin.String`) is embedded as `Option`.

The chomp combinator primitives (`Tag`, `While`, `Not`, `Opt`, `All`,
`ManyN`, `Map`, `Crlf`) are an external dependency whose source is not part
of the repository; they are modelled from the specification's description of
the Combinator Primitives component.
-/

/-! ## Character classes (Go `unicode.IsSpace`) -/

/-- Go's `unicode.IsSpace`: the Unicode White_Space property, namely
U+0009–U+000D, U+0020, U+0085, U+00A0, U+1680, U+2000–U+200A, U+2028,
U+2029, U+202F, U+205F and U+3000. -/
def isSpace (c : Char) : Bool :=
  let n := c.toNat
  (9 ≤ n && n ≤ 13) || n = 32 || n = 133 || n = 160 || n = 0x1680 ||
    (0x2000 ≤ n && n ≤ 0x200A) || n = 0x2028 || n = 0x2029 || n = 0x202F ||
    n = 0x205F || n = 0x3000

/-- Go's `strings.TrimSpace`: remove leading and trailing whitespace. -/
def trimSpace (s : List Char) : List Char :=
  ((s.dropWhile isSpace).reverse.dropWhile isSpace).reverse

/-- Characters of a string literal, used to transcribe Go string literals. -/
def chars (s : String) : List Char := s.data

/-! ## The netrc data model (source: netrc module `main.go`) -/

/-- Go `Login`: login and initialization information used by the auto-login
process when connecting to a remote machine. -/
structure Login where
  machine : List Char
  username : List Char
  password : List Char
deriving DecidableEq, Repr

/-- Go `type Format string`: the output format of the configuration file. -/
def Format : Type := List Char
deriving DecidableEq

/-- Go constant `Compact Format = "compact"`. -/
def Compact : Format := chars "compact"

/-- Go constant `Full Format = "full"`. -/
def Full : Format := chars "full"

/-- Go `func compact(l Login) string`:
`fmt.Sprintf("machine %s login %s password %s\n", ...)`. -/
def compactFmt (l : Login) : List Char :=
  chars "machine " ++ l.machine ++ chars " login " ++ l.username ++
    chars " password " ++ l.password ++ chars "\n"

/-- Go `func full(l Login) string`:
`fmt.Sprintf("machine %s\nlogin %s\npassword %s\n", ...)`. -/
def fullFmt (l : Login) : List Char :=
  chars "machine " ++ l.machine ++ chars "\nlogin " ++ l.username ++
    chars "\npassword " ++ l.password ++ chars "\n"

/-- Go `AutoLogin`: configuration details for logging into remote sites. -/
structure AutoLogin where
  Logins : List Login
  Fmt : Format

/-- The `switch a.Format` statement of `AutoLogin.String`: the per-record
rendering function, left nil (`none`) by the switch when the format is
neither `Compact` nor `Full` (the switch has no default branch). -/
def formatFn (f : Format) : Option (Login → List Char) :=
  if f = Compact then some compactFmt
  else if f = Full then some fullFmt
  else none

/-- Go `func (a AutoLogin) String() string`: renders every login with the
function selected by the switch on `a.Format` and trims the result.  When the
switch leaves the function nil and the login list is non-empty, the Go code
dereferences a nil function and panics, embedded here as `none`; with an
empty login list the loop body never runs and the (trimmed) empty string is
returned whatever the format. -/
def AutoLogin.String (a : AutoLogin) : Option (List Char) :=
  match formatFn a.Fmt with
  | some f => some (trimSpace (a.Logins.map f).flatten)
  | none => match a.Logins with
    | [] => some (trimSpace [])
    | _ :: _ => none

/-! ## The chomp combinator primitives

Modelled from the spec: the chomp parser-combinator library
(`github.com/purpleclay/chomp`) is an external dependency whose source is
not vendored in the repository; the definitions below follow the
specification's Combinator Primitives contract: every combinator maps the
remaining input to `(remainder, extracted value)` or fails, and composition
short-circuits at the first failure. -/

/-- A combinator over a linear text cursor: remainder and extraction, or
failure. -/
def Comb (α : Type) : Type := List Char → Option (List Char × α)

/-- Helper for `Tag`: strip a literal from the front of the input. -/
def stripTag : List Char → List Char → Option (List Char)
  | [], s => some s
  | _ :: _, [] => none
  | l :: ls, c :: cs => if l = c then stripTag ls cs else none

/-- Modelled from the spec: `Tag(literal)` succeeds only if the remaining
input starts with `literal`, consuming and extracting it. -/
def Tag (lit : List Char) : Comb (List Char) := fun s =>
  (stripTag lit s).map fun rem => (rem, lit)

/-- Modelled from the spec: `While(predicate)` consumes the maximal run of
characters satisfying the predicate; it always succeeds and may consume
zero characters. -/
def While (p : Char → Bool) : Comb (List Char) := fun s =>
  some (s.dropWhile p, s.takeWhile p)

/-- Modelled from the spec: `Not(charset)` consumes the maximal run of
characters not in `charset`, capturing a value token up to the next
delimiter; a token is non-empty, so an empty run is a failure. -/
def NotOf (charset : List Char) : Comb (List Char) := fun s =>
  let t := s.takeWhile fun c => !charset.contains c
  if t.isEmpty then none else some (s.dropWhile (fun c => !charset.contains c), t)

/-- Modelled from the spec: `Opt(p)` runs `p`; on failure it succeeds having
consumed nothing and extracted nothing. -/
def Opt (c : Comb (List Char)) : Comb (List Char) := fun s =>
  match c s with
  | none => some (s, [])
  | some r => some r

/-- Modelled from the spec: `Crlf()` consumes one `\r\n` or `\n` line
terminator. -/
def Crlf : Comb (List Char) := fun s =>
  match s with
  | [] => none
  | c :: rest =>
    if c = '\r' then
      match rest with
      | [] => none
      | c2 :: rest2 => if c2 = '\n' then some (rest2, ['\r', '\n']) else none
    else if c = '\n' then some (rest, ['\n'])
    else none

/-- Modelled from the spec: `All(p1..pn)` runs each combinator in sequence,
failing atomically if any fails, and extracts the ordered list of the
sub-extractions. -/
def All {α : Type} : List (Comb α) → Comb (List α)
  | [] => fun s => some (s, [])
  | c :: cs => fun s =>
    match c s with
    | none => none
    | some (rem, v) =>
      match All cs rem with
      | none => none
      | some (rem2, vs) => some (rem2, v :: vs)

/-- Greedy repetition used by `ManyN`: apply the combinator until it fails,
collecting the extractions; the fuel bounds the number of iterations and is
always supplied larger than the input length, which is sufficient because
every successful application of the repeated grammar consumes input. -/
def manyAux {α : Type} (c : Comb α) : Nat → List Char → List α × List Char
  | 0, s => ([], s)
  | fuel + 1, s =>
    match c s with
    | none => ([], s)
    | some (rem, a) =>
      let r := manyAux c fuel rem
      (a :: r.1, r.2)

/-- Modelled from the spec: `ManyN(p, min)` repeats `p` until it fails,
failing if fewer than `min` repetitions succeeded, and returns the flat
list of all extracted values. -/
def ManyN {α : Type} (c : Comb (List α)) (min : Nat) : Comb (List α) := fun s =>
  let r := manyAux c (s.length + 1) s
  if min ≤ r.1.length then some (r.2, r.1.flatten) else none

/-- Modelled from the spec: `Map(p, f)` runs `p` and transforms its
extraction with the pure function `f`. -/
def MapC {α β : Type} (c : Comb α) (f : α → β) : Comb β := fun s =>
  (c s).map fun r => (r.1, f r.2)

/-! ## The credential grammar (source: netrc module `main.go`) -/

/-- Go `eatIdent(ident)`: matches the identifier, whitespace, a value token
(`chomp.Not("\r\n ")`), optional trailing whitespace and an optional line
terminator, extracting only the value token (`ext[2]`). -/
def eatIdent (ident : List Char) : Comb (List Char) := fun s =>
  match All [Tag ident, While isSpace, NotOf (chars "\r\n "),
      Opt (While isSpace), Opt Crlf] s with
  | none => none
  | some (rem, ext) => some (rem, ext.getD 2 [])

/-- One credential triple: `chomp.All(eatIdent(machine), eatIdent(login),
eatIdent(password))`, strictly in that order. -/
def eatTriple : Comb (List (List Char)) :=
  All [eatIdent (chars "machine"), eatIdent (chars "login"),
    eatIdent (chars "password")]

/-- The regrouping loop of `fromConfiguration`: the flat extraction list
comes in series of three `(machine, login, password)`; the Go loop indexes
`in[i]`, `in[i+1]`, `in[i+2]` stepping by three (the list produced by the
grammar always has length a multiple of three). -/
def groupLogins : List (List Char) → List Login
  | m :: u :: p :: rest => { machine := m, username := u, password := p } :: groupLogins rest
  | _ => []

/-- Go `fromConfiguration(cfg)`: `chomp.Map(chomp.ManyN(triple, 1), regroup)`
applied to the configuration text, returning the extracted logins and
discarding the unconsumed remainder. -/
def fromConfiguration (cfg : List Char) : Option (List Login) :=
  (MapC (ManyN eatTriple 1) groupLogins cfg).map Prod.snd

/-! ## The Netrc module builder (source: netrc module `main.go`) -/

/-- Go `Netrc`: the dagger module holding the accumulated configuration. -/
structure Netrc where
  Config : AutoLogin

/-- Go `New(format)`: initializes the module with an empty login list. -/
def NetrcNew (format : Format) : Netrc :=
  { Config := { Logins := [], Fmt := format } }

/-- Go `Netrc.WithLogin`: appends one login record built from the resolved
username and password plaintexts (secret resolution, the only failure path,
is abstracted: the plaintexts are the arguments). -/
def Netrc.WithLogin (m : Netrc) (machine username password : List Char) : Netrc :=
  { Config := { m.Config with
      Logins := m.Config.Logins ++
        [{ machine := machine, username := username, password := password }] } }

/-- Go `Netrc.WithFile`: parses the file contents with the credential
grammar; on success appends all parsed logins after the existing ones, on
failure returns the error (`none`) without touching the login list. -/
def Netrc.WithFile (m : Netrc) (config : List Char) : Option Netrc :=
  (fromConfiguration config).map fun logins =>
    { Config := { m.Config with Logins := m.Config.Logins ++ logins } }

/-! ## Parsing lemmas -/

/-- A list whose head (if any) fails the predicate. -/
def headFails (p : Char → Bool) : List Char → Prop
  | [] => True
  | c :: _ => p c = false

theorem takeWhile_append_exact {p : Char → Bool} {T R : List Char}
    (hT : ∀ c ∈ T, p c = true) (hR : headFails p R) :
    (T ++ R).takeWhile p = T := by
  induction T with
  | nil =>
    cases R with
    | nil => rfl
    | cons c cs => simp [List.takeWhile_cons, show p c = false from hR]
  | cons t ts ih =>
    have := hT t (by simp)
    simp only [List.cons_append, List.takeWhile_cons, this, if_true]
    rw [ih fun c hc => hT c (by simp [hc])]

theorem dropWhile_append_exact {p : Char → Bool} {T R : List Char}
    (hT : ∀ c ∈ T, p c = true) (hR : headFails p R) :
    (T ++ R).dropWhile p = R := by
  induction T with
  | nil =>
    cases R with
    | nil => rfl
    | cons c cs => simp [List.dropWhile_cons, show p c = false from hR]
  | cons t ts ih =>
    have := hT t (by simp)
    simp only [List.cons_append, List.dropWhile_cons, this, if_true]
    exact ih fun c hc => hT c (by simp [hc])

theorem stripTag_append (lit r : List Char) : stripTag lit (lit ++ r) = some r := by
  induction lit with
  | nil => rfl
  | cons l ls ih => simp [stripTag, ih]

/-- Membership in the delimiter charset `"\r\n "` implies whitespace. -/
theorem charset_mem_isSpace {c : Char} (h : c ∈ chars "\r\n ") :
    isSpace c = true := by
  have : c = '\r' ∨ c = '\n' ∨ c = ' ' := by
    simpa [chars] using h
  rcases this with rfl | rfl | rfl <;> decide

/-- A whitespace-free character is not a delimiter. -/
theorem not_mem_charset_of_not_space {c : Char} (h : isSpace c = false) :
    c ∉ chars "\r\n " := by
  intro hc
  rw [charset_mem_isSpace hc] at h
  cases h

/-- The exact behaviour of `eatIdent` on input of the shape produced by the
serializer: the identifier, one space, a non-empty whitespace-free token, an
optional single whitespace delimiter, then either nothing or a rest whose
first character is not whitespace.  The token is extracted and exactly the
rest remains. -/
theorem eatIdent_exact (kw T sfx rest : List Char)
    (hT : T ≠ []) (hTc : ∀ c ∈ T, isSpace c = false)
    (hsfx : (sfx = [] ∧ rest = []) ∨
      (∃ d, sfx = [d] ∧ (d = ' ' ∨ d = '\r' ∨ d = '\n') ∧ headFails isSpace rest)) :
    eatIdent kw (kw ++ ' ' :: (T ++ (sfx ++ rest))) = some (rest, T) := by
  obtain ⟨t0, ts, rfl⟩ : ∃ t0 ts, T = t0 :: ts := by
    cases T with
    | nil => exact absurd rfl hT
    | cons a b => exact ⟨a, b, rfl⟩
  have ht0 : isSpace t0 = false := hTc t0 (by simp)
  -- step 1: Tag kw
  have hTag : Tag kw (kw ++ ' ' :: (t0 :: ts ++ (sfx ++ rest))) =
      some (' ' :: (t0 :: ts ++ (sfx ++ rest)), kw) := by
    simp [Tag, stripTag_append]
  -- step 2: While isSpace eats the single space
  have hWhile : While isSpace (' ' :: (t0 :: ts ++ (sfx ++ rest))) =
      some (t0 :: ts ++ (sfx ++ rest), [' ']) := by
    simp only [While]
    rw [show (' ' :: (t0 :: ts ++ (sfx ++ rest))) = [' '] ++ (t0 :: ts ++ (sfx ++ rest)) from rfl]
    rw [dropWhile_append_exact (by intro c hc; simp at hc; subst hc; decide) (by simpa [headFails] using ht0),
      takeWhile_append_exact (by intro c hc; simp at hc; subst hc; decide) (by simpa [headFails] using ht0)]
  -- step 3: NotOf captures the token
  have hcharset : ∀ c ∈ t0 :: ts, (!(chars "\r\n ").contains c) = true := by
    intro c hc
    simpa using not_mem_charset_of_not_space (hTc c hc)
  have hsfxHead : headFails (fun c => !(chars "\r\n ").contains c) (sfx ++ rest) := by
    rcases hsfx with ⟨rfl, rfl⟩ | ⟨d, rfl, hd, _⟩
    · simp [headFails]
    · have : d ∈ chars "\r\n " := by
        rcases hd with rfl | rfl | rfl <;> decide
      simpa [headFails] using this
  have hNot : NotOf (chars "\r\n ") (t0 :: ts ++ (sfx ++ rest)) =
      some (sfx ++ rest, t0 :: ts) := by
    simp only [NotOf]
    rw [takeWhile_append_exact hcharset hsfxHead, dropWhile_append_exact hcharset hsfxHead]
    simp
  -- step 4: Opt (While isSpace) eats the delimiter
  have hsfxWs : ∀ c ∈ sfx, isSpace c = true := by
    rcases hsfx with ⟨rfl, _⟩ | ⟨d, rfl, hd, _⟩
    · simp
    · intro c hc; simp at hc; subst hc
      rcases hd with rfl | rfl | rfl <;> decide
  have hrestHead : headFails isSpace rest := by
    rcases hsfx with ⟨_, rfl⟩ | ⟨d, _, _, h⟩
    · simp [headFails]
    · exact h
  have hOptWs : Opt (While isSpace) (sfx ++ rest) = some (rest, sfx) := by
    simp only [Opt, While]
    rw [dropWhile_append_exact hsfxWs hrestHead, takeWhile_append_exact hsfxWs hrestHead]
  -- step 5: Opt Crlf consumes nothing
  have hCrlf : Opt Crlf rest = some (rest, []) := by
    cases rest with
    | nil => simp [Opt, Crlf]
    | cons c cs =>
      have hc : isSpace c = false := hrestHead
      have hr : c ≠ '\r' := by rintro rfl; simp [isSpace] at hc
      have hn : c ≠ '\n' := by rintro rfl; simp [isSpace] at hc
      simp [Opt, Crlf, hr, hn]
  -- assemble
  simp only [eatIdent, All, hTag, hWhile, hNot, hOptWs, hCrlf]
  rfl

/-! ## Consumption bounds and fuel irrelevance -/

theorem stripTag_length {lit s rem : List Char} (h : stripTag lit s = some rem) :
    rem.length + lit.length = s.length := by
  induction lit generalizing s with
  | nil => cases h; simp
  | cons l ls ih =>
    cases s with
    | nil => exact absurd h (by simp [stripTag])
    | cons c cs =>
      by_cases hlc : l = c
      · simp only [stripTag, if_pos hlc] at h
        have := ih h
        simp [List.length_cons]
        omega
      · simp [stripTag, hlc] at h

theorem dropWhile_length_le (p : Char → Bool) (s : List Char) :
    (s.dropWhile p).length ≤ s.length := by
  induction s with
  | nil => simp
  | cons c cs ih =>
    rw [List.dropWhile_cons]
    by_cases h : p c = true
    · simp only [h, if_true]
      exact Nat.le_trans ih (by simp)
    · simp [h]

theorem tag_length {lit s rem v : List Char} (h : Tag lit s = some (rem, v)) :
    rem.length + lit.length = s.length := by
  simp only [Tag] at h
  cases hst : stripTag lit s with
  | none => simp only [hst, Option.map] at h; cases h
  | some r =>
    simp only [hst, Option.map, Option.some_inj, Prod.mk.injEq] at h
    obtain ⟨h1, _⟩ := h
    subst h1
    exact stripTag_length hst

theorem while_length {p : Char → Bool} {s rem v : List Char}
    (h : While p s = some (rem, v)) : rem.length ≤ s.length := by
  simp only [While, Option.some_inj] at h
  cases h
  exact dropWhile_length_le p s

theorem notOf_length {cs s rem v : List Char} (h : NotOf cs s = some (rem, v)) :
    rem.length ≤ s.length := by
  simp only [NotOf] at h
  split at h
  · cases h
  · simp only [Option.some_inj] at h
    cases h
    exact dropWhile_length_le _ s

theorem opt_length {c : Comb (List Char)}
    (hc : ∀ {s rem v}, c s = some (rem, v) → rem.length ≤ s.length)
    {s rem v : List Char} (h : Opt c s = some (rem, v)) : rem.length ≤ s.length := by
  simp only [Opt] at h
  cases hcs : c s with
  | none =>
    simp only [hcs, Option.some_inj, Prod.mk.injEq] at h
    obtain ⟨h1, _⟩ := h
    subst h1
    exact Nat.le_refl _
  | some r =>
    obtain ⟨r1, r2⟩ := r
    simp only [hcs, Option.some_inj, Prod.mk.injEq] at h
    obtain ⟨h1, _⟩ := h
    subst h1
    exact hc hcs

theorem crlf_length {s rem v : List Char} (h : Crlf s = some (rem, v)) :
    rem.length ≤ s.length := by
  simp only [Crlf] at h
  cases s with
  | nil => cases h
  | cons c cs =>
    by_cases hr : c = '\r'
    · simp only [hr, if_pos rfl] at h
      cases cs with
      | nil => cases h
      | cons c2 cs2 =>
        by_cases hn : c2 = '\n'
        · simp only [hn, if_pos rfl, Option.some_inj] at h
          cases h; simp; omega
        · simp [hn] at h
    · by_cases hn : c = '\n'
      · simp only [hr, if_neg (by exact hr), hn, if_pos rfl, Option.some_inj] at h
        cases h; simp
      · simp [hr, hn] at h

/-- Every successful `eatIdent` strictly consumes input (the identifiers
matched by the grammar are non-empty). -/
theorem eatIdent_length {ident s rem v : List Char} (hid : ident ≠ [])
    (h : eatIdent ident s = some (rem, v)) : rem.length < s.length := by
  simp only [eatIdent, All] at h
  cases h1 : Tag ident s with
  | none => simp only [h1] at h; cases h
  | some r1 =>
    obtain ⟨s1, v1⟩ := r1
    simp only [h1] at h
    cases h2 : While isSpace s1 with
    | none => simp only [h2] at h; cases h
    | some r2 =>
      obtain ⟨s2, v2⟩ := r2
      simp only [h2] at h
      cases h3 : NotOf (chars "\r\n ") s2 with
      | none => simp only [h3] at h; cases h
      | some r3 =>
        obtain ⟨s3, v3⟩ := r3
        simp only [h3] at h
        cases h4 : Opt (While isSpace) s3 with
        | none => simp only [h4] at h; cases h
        | some r4 =>
          obtain ⟨s4, v4⟩ := r4
          simp only [h4] at h
          cases h5 : Opt Crlf s4 with
          | none => simp only [h5] at h; cases h
          | some r5 =>
            obtain ⟨s5, v5⟩ := r5
            simp only [h5, Option.some_inj, Prod.mk.injEq] at h
            obtain ⟨hrem, _⟩ := h
            subst hrem
            have l1 := tag_length h1
            have l2 := while_length h2
            have l3 := notOf_length h3
            have l4 := opt_length (fun h => while_length h) h4
            have l5 := opt_length (fun h => crlf_length h) h5
            have : 0 < ident.length := List.length_pos.mpr hid
            omega

/-- Every successful parse of one credential triple strictly consumes
input. -/
theorem eatTriple_length {s rem : List Char} {v : List (List Char)}
    (h : eatTriple s = some (rem, v)) : rem.length < s.length := by
  simp only [eatTriple, All] at h
  cases h1 : eatIdent (chars "machine") s with
  | none => simp only [h1] at h; cases h
  | some r1 =>
    obtain ⟨s1, v1⟩ := r1
    simp only [h1] at h
    cases h2 : eatIdent (chars "login") s1 with
    | none => simp only [h2] at h; cases h
    | some r2 =>
      obtain ⟨s2, v2⟩ := r2
      simp only [h2] at h
      cases h3 : eatIdent (chars "password") s2 with
      | none => simp only [h3] at h; cases h
      | some r3 =>
        obtain ⟨s3, v3⟩ := r3
        simp only [h3, Option.some_inj, Prod.mk.injEq] at h
        obtain ⟨hrem, _⟩ := h
        subst hrem
        have l1 := eatIdent_length (by decide) h1
        have l2 := eatIdent_length (by decide) h2
        have l3 := eatIdent_length (by decide) h3
        omega

/-- The extraction of `All` has one element per sequenced combinator. -/
theorem all_length {α : Type} {cs : List (Comb α)} {s rem : List Char}
    {vs : List α} (h : All cs s = some (rem, vs)) : vs.length = cs.length := by
  induction cs generalizing s vs rem with
  | nil =>
    simp only [All, Option.some_inj, Prod.mk.injEq] at h
    obtain ⟨_, h2⟩ := h
    subst h2
    rfl
  | cons c cs ih =>
    simp only [All] at h
    cases h1 : c s with
    | none => simp only [h1] at h; cases h
    | some r1 =>
      obtain ⟨s1, v1⟩ := r1
      simp only [h1] at h
      cases h2 : All cs s1 with
      | none => simp only [h2] at h; cases h
      | some r2 =>
        obtain ⟨s2, v2⟩ := r2
        simp only [h2, Option.some_inj, Prod.mk.injEq] at h
        obtain ⟨_, h3⟩ := h
        subst h3
        simp [ih h2]

/-- For a combinator that strictly consumes on success, the greedy
repetition is independent of the fuel as long as the fuel exceeds the input
length. -/
theorem manyAux_fuel {α : Type} {c : Comb α}
    (hc : ∀ {s rem a}, c s = some (rem, a) → rem.length < s.length) :
    ∀ (f g : Nat) (s : List Char), s.length < f → s.length < g →
      manyAux c f s = manyAux c g s := by
  intro f
  induction f with
  | zero => intro g s hf; omega
  | succ f ih =>
    intro g s hf hg
    cases g with
    | zero => omega
    | succ g =>
      simp only [manyAux]
      cases hcs : c s with
      | none => rfl
      | some ra =>
        obtain ⟨rem, a⟩ := ra
        have hlt := hc hcs
        dsimp only
        rw [ih g rem (by omega) (by omega)]

/-- `groupLogins` distributes over the append of one complete triple. -/
theorem groupLogins_append₃ (m u p : List Char) (rest : List (List Char)) :
    groupLogins ([m, u, p] ++ rest) =
      { machine := m, username := u, password := p } :: groupLogins rest := by
  rfl

/-- C7 (trailing-input tolerance): whenever one well-formed triple parses at
the front of the input, the whole credential grammar succeeds: the extracted
records are the first triple's record followed by whatever the greedy
repetition extracts from the unconsumed remainder (nothing, when the
remainder holds no further triple) — trailing text that does not itself
parse as a triple is not an error. -/
theorem C7_trailing_input_tolerance (s rem : List Char) (ext : List (List Char))
    (h : eatTriple s = some (rem, ext)) :
    fromConfiguration s = some (groupLogins ext ++ (fromConfiguration rem).getD []) := by
  have hlt : rem.length < s.length := eatTriple_length h
  have hext3 : ext.length = 3 := by simpa using all_length h
  obtain ⟨a, b, c, rfl⟩ : ∃ a b c, ext = [a, b, c] := by
    match ext, hext3 with
    | [a, b, c], _ => exact ⟨a, b, c, rfl⟩
  obtain ⟨as, r, hQ⟩ : ∃ as r, manyAux eatTriple (rem.length + 1) rem = (as, r) :=
    ⟨_, _, rfl⟩
  have hstep : manyAux eatTriple (s.length + 1) s = ([a, b, c] :: as, r) := by
    simp only [manyAux, h]
    rw [manyAux_fuel (fun hh => eatTriple_length hh) s.length (rem.length + 1) rem hlt
      (Nat.lt_succ_self _), hQ]
  simp only [fromConfiguration, MapC, ManyN, hstep, hQ]
  cases as with
  | nil => simp [groupLogins]
  | cons x xs =>
    simp only [Option.map, Option.getD, List.flatten_cons, List.cons_append,
      List.length_cons, Nat.le_add_left, if_pos, Option.some_inj]
    rfl

/-! ## Round-trip machinery -/

/-- A login whose three fields are non-empty and contain no whitespace
character: exactly the records whose serialized form survives tokenization
by the grammar (a field containing a space, for instance, is split across
tokens and breaks the parse). -/
def goodLogin (l : Login) : Prop :=
  l.machine ≠ [] ∧ l.username ≠ [] ∧ l.password ≠ [] ∧
    (∀ c ∈ l.machine, isSpace c = false) ∧ (∀ c ∈ l.username, isSpace c = false) ∧
    (∀ c ∈ l.password, isSpace c = false)

instance (l : Login) : Decidable (goodLogin l) := by
  unfold goodLogin; infer_instance

/-- Normal form of one serialized record followed by a tail, with `d` the
separator between a field's value and the next keyword (`' '` in compact
format, `'\n'` in full format). -/
def tripleShape (d : Char) (l : Login) (tail : List Char) : List Char :=
  chars "machine" ++ ' ' :: (l.machine ++ ([d] ++
    (chars "login" ++ ' ' :: (l.username ++ ([d] ++
      (chars "password" ++ ' ' :: (l.password ++ tail)))))))

theorem tripleShape_append (d : Char) (l : Login) (t u : List Char) :
    tripleShape d l t ++ u = tripleShape d l (t ++ u) := by
  simp [tripleShape, List.append_assoc]

theorem compactFmt_shape (l : Login) : compactFmt l = tripleShape ' ' l ['\n'] := by
  simp only [compactFmt, tripleShape, List.append_assoc]
  rfl

theorem fullFmt_shape (l : Login) : fullFmt l = tripleShape '\n' l ['\n'] := by
  simp only [fullFmt, tripleShape, List.append_assoc]
  rfl

/-- Parsing one serialized record: the three `eatIdent` of the triple
grammar extract exactly the three fields and leave exactly the tail after
the record's trailing delimiter. -/
theorem eatTriple_shape (d : Char) (hd : d = ' ' ∨ d = '\n') (l : Login)
    (hl : goodLogin l) (sfx rest : List Char)
    (hsfx : (sfx = [] ∧ rest = []) ∨ (sfx = ['\n'] ∧ headFails isSpace rest)) :
    eatTriple (tripleShape d l (sfx ++ rest)) =
      some (rest, [l.machine, l.username, l.password]) := by
  obtain ⟨hM, hU, hP, hMc, hUc, hPc⟩ := hl
  have hd' : d = ' ' ∨ d = '\r' ∨ d = '\n' := by
    rcases hd with rfl | rfl
    · exact Or.inl rfl
    · exact Or.inr (Or.inr rfl)
  have h1 : eatIdent (chars "machine")
      (chars "machine" ++ ' ' :: (l.machine ++ ([d] ++
        (chars "login" ++ ' ' :: (l.username ++ ([d] ++
          (chars "password" ++ ' ' :: (l.password ++ (sfx ++ rest))))))))) =
      some (chars "login" ++ ' ' :: (l.username ++ ([d] ++
          (chars "password" ++ ' ' :: (l.password ++ (sfx ++ rest))))), l.machine) := by
    refine eatIdent_exact _ _ _ _ hM hMc (Or.inr ⟨d, rfl, hd', ?_⟩)
    show isSpace 'l' = false
    decide
  have h2 : eatIdent (chars "login")
      (chars "login" ++ ' ' :: (l.username ++ ([d] ++
        (chars "password" ++ ' ' :: (l.password ++ (sfx ++ rest)))))) =
      some (chars "password" ++ ' ' :: (l.password ++ (sfx ++ rest)), l.username) := by
    refine eatIdent_exact _ _ _ _ hU hUc (Or.inr ⟨d, rfl, hd', ?_⟩)
    show isSpace 'p' = false
    decide
  have h3 : eatIdent (chars "password")
      (chars "password" ++ ' ' :: (l.password ++ (sfx ++ rest))) =
      some (rest, l.password) := by
    refine eatIdent_exact _ _ _ _ hP hPc ?_
    rcases hsfx with ⟨rfl, rfl⟩ | ⟨rfl, hr⟩
    · exact Or.inl ⟨rfl, rfl⟩
    · exact Or.inr ⟨'\n', rfl, Or.inr (Or.inr rfl), hr⟩
  simp only [tripleShape, eatTriple, All, h1, h2, h3]

/-- The serialized chain of a non-empty list of records: every record in
`tripleShape` form, newline-separated, with no trailing newline (the form
`TrimSpace` leaves behind). -/
def chainSep (d : Char) : List Login → List Char
  | [] => []
  | [l] => tripleShape d l []
  | l :: ls => tripleShape d l ('\n' :: chainSep d ls)

theorem headFails_chainSep (d : Char) (ls : List Login) (h : ls ≠ []) :
    headFails isSpace (chainSep d ls) := by
  match ls with
  | [l] =>
    show isSpace 'm' = false
    decide
  | l :: x :: xs =>
    show isSpace 'm' = false
    decide

/-- The greedy repetition consumes a whole serialized chain, extracting the
fields of every record in order. -/
theorem manyAux_chainSep (d : Char) (hd : d = ' ' ∨ d = '\n') (ls : List Login)
    (hne : ls ≠ []) (hg : ∀ l ∈ ls, goodLogin l) :
    ∀ f, (chainSep d ls).length < f →
      manyAux eatTriple f (chainSep d ls) =
        (ls.map fun l => [l.machine, l.username, l.password], []) := by
  induction ls with
  | nil => exact absurd rfl hne
  | cons l tail ih =>
    intro f hf
    cases f with
    | zero => omega
    | succ f =>
      cases tail with
      | nil =>
        have h1 : eatTriple (chainSep d [l]) = some ([], [l.machine, l.username, l.password]) := by
          have := eatTriple_shape d hd l (hg l (by simp)) [] [] (Or.inl ⟨rfl, rfl⟩)
          simpa [chainSep] using this
        simp only [chainSep] at h1 ⊢
        simp only [manyAux, h1]
        have hnil : ∀ g, manyAux eatTriple g ([] : List Char) = ([], []) := by
          intro g
          cases g with
          | zero => rfl
          | succ g => simp [manyAux, show eatTriple [] = none from by decide]
        simp [hnil]
      | cons x xs =>
        have htail : headFails isSpace (chainSep d (x :: xs)) :=
          headFails_chainSep d (x :: xs) (by simp)
        have h1 : eatTriple (chainSep d (l :: x :: xs)) =
            some (chainSep d (x :: xs), [l.machine, l.username, l.password]) := by
          have := eatTriple_shape d hd l (hg l (by simp)) ['\n'] (chainSep d (x :: xs))
            (Or.inr ⟨rfl, htail⟩)
          simpa [chainSep] using this
        have hlt : (chainSep d (x :: xs)).length < (chainSep d (l :: x :: xs)).length :=
          eatTriple_length h1
        simp only [manyAux, h1]
        rw [ih (by simp) (fun a ha => hg a (by simp [ha])) f (by omega)]
        rfl

/-- Regrouping the flattened field lists of serialized records recovers the
records. -/
theorem groupLogins_fields (ls : List Login) :
    groupLogins ((ls.map fun l => [l.machine, l.username, l.password]).flatten) = ls := by
  induction ls with
  | nil => rfl
  | cons l tail ih =>
    simp only [List.map_cons, List.flatten_cons, List.cons_append]
    show groupLogins ([l.machine, l.username, l.password] ++
      (tail.map fun l => [l.machine, l.username, l.password]).flatten) = l :: tail
    rw [groupLogins_append₃, ih]

/-- The whole grammar accepts a serialized chain and returns exactly its
records. -/
theorem fromConfiguration_chainSep (d : Char) (hd : d = ' ' ∨ d = '\n')
    (ls : List Login) (hne : ls ≠ []) (hg : ∀ l ∈ ls, goodLogin l) :
    fromConfiguration (chainSep d ls) = some ls := by
  have hrun := manyAux_chainSep d hd ls hne hg ((chainSep d ls).length + 1)
    (Nat.lt_succ_self _)
  simp only [fromConfiguration, MapC, ManyN, hrun]
  have hlen : 1 ≤ (ls.map fun l => [l.machine, l.username, l.password]).length := by
    cases ls with
    | nil => exact absurd rfl hne
    | cons a b => simp
  rw [if_pos hlen]
  simp [groupLogins_fields ls]

theorem flatten_chainSep (d : Char) (fmtF : Login → List Char)
    (hfmt : ∀ l, fmtF l = tripleShape d l ['\n']) (ls : List Login) (hne : ls ≠ []) :
    (ls.map fmtF).flatten = chainSep d ls ++ ['\n'] := by
  induction ls with
  | nil => exact absurd rfl hne
  | cons l tail ih =>
    cases tail with
    | nil =>
      simp [chainSep, hfmt l, tripleShape_append]
    | cons x xs =>
      have htail : (List.map fmtF (x :: xs)).flatten = chainSep d (x :: xs) ++ ['\n'] :=
        ih (by simp)
      show fmtF l ++ (List.map fmtF (x :: xs)).flatten = chainSep d (l :: x :: xs) ++ ['\n']
      rw [htail, hfmt l, show chainSep d (l :: x :: xs) =
        tripleShape d l ('\n' :: chainSep d (x :: xs)) from rfl,
        tripleShape_append, tripleShape_append]
      simp

theorem dropWhile_headFails {p : Char → Bool} {s : List Char}
    (h : headFails p s) : s.dropWhile p = s := by
  cases s with
  | nil => rfl
  | cons c cs => simp [List.dropWhile_cons, show p c = false from h]

theorem dropWhile_cons_true {p : Char → Bool} {c : Char} {t : List Char}
    (h : p c = true) : List.dropWhile p (c :: t) = List.dropWhile p t := by
  simp [List.dropWhile_cons, h]

theorem headFails_append_left {p : Char → Bool} {s t : List Char}
    (hne : s ≠ []) (h : headFails p s) : headFails p (s ++ t) := by
  cases s with
  | nil => exact absurd rfl hne
  | cons c cs => exact h

/-- The serializer ends the chain with a final newline; `TrimSpace` removes
exactly that newline when the chain starts and ends with non-whitespace. -/
theorem trimSpace_chain (s : List Char) (h1 : headFails isSpace s)
    (pre : List Char) (c : Char) (h2 : s = pre ++ [c]) (h3 : isSpace c = false) :
    trimSpace (s ++ ['\n']) = s := by
  have hne : s ≠ [] := by
    subst h2
    simp
  simp only [trimSpace]
  rw [dropWhile_headFails (headFails_append_left hne h1)]
  subst h2
  rw [List.reverse_append, List.reverse_append]
  simp only [List.reverse_cons, List.reverse_nil, List.nil_append,
    List.singleton_append, List.cons_append]
  rw [dropWhile_cons_true (by decide : isSpace '\n' = true)]
  rw [show List.dropWhile isSpace (c :: pre.reverse) = c :: pre.reverse from by
    simp [List.dropWhile_cons, h3]]
  simp

/-- The last character of a serialized chain of good records is the last
character of the final password, which is not whitespace. -/
theorem chainSep_concat (d : Char) (ls : List Login) (hne : ls ≠ [])
    (hg : ∀ l ∈ ls, goodLogin l) :
    ∃ pre c, chainSep d ls = pre ++ [c] ∧ isSpace c = false := by
  induction ls with
  | nil => exact absurd rfl hne
  | cons l tail ih =>
    cases tail with
    | nil =>
      obtain ⟨_, _, hP, _, _, hPc⟩ := hg l (by simp)
      obtain ⟨ps, p', hps⟩ : ∃ ps p', l.password = ps ++ [p'] := by
        rcases List.eq_nil_or_concat l.password with h | ⟨L, b, h⟩
        · exact absurd h hP
        · exact ⟨L, b, by simpa [List.concat_eq_append] using h⟩
      refine ⟨chars "machine" ++ ' ' :: (l.machine ++ ([d] ++
        (chars "login" ++ ' ' :: (l.username ++ ([d] ++
          (chars "password" ++ ' ' :: ps)))))), p', ?_, ?_⟩
      · show tripleShape d l [] = _
        rw [tripleShape, hps]
        simp [List.append_assoc]
      · exact hPc p' (by simp [hps])
    | cons x xs =>
      obtain ⟨pre, c, hc, hcw⟩ := ih (by simp) (fun a ha => hg a (by simp [ha]))
      refine ⟨tripleShape d l ('\n' :: pre), c, ?_, hcw⟩
      show tripleShape d l ('\n' :: chainSep d (x :: xs)) = _
      rw [hc, tripleShape_append]
      simp

/-- Serializing a non-empty list of good records in either format yields
exactly the newline-free chain. -/
theorem trim_flatten_eq_chainSep (d : Char) (fmtF : Login → List Char)
    (hfmt : ∀ l, fmtF l = tripleShape d l ['\n']) (ls : List Login)
    (hne : ls ≠ []) (hg : ∀ l ∈ ls, goodLogin l) :
    trimSpace (ls.map fmtF).flatten = chainSep d ls := by
  rw [flatten_chainSep d fmtF hfmt ls hne]
  obtain ⟨pre, c, hc, hcw⟩ := chainSep_concat d ls hne hg
  exact trimSpace_chain _ (headFails_chainSep d ls hne) pre c hc hcw

/-! ## The configuration builder -/

/-- A configuration built solely through chained `WithLogin` calls starting
from `New(format)`: one entry `(machine, username, password)` per call. -/
def buildNetrc (format : Format)
    (entries : List (List Char × List Char × List Char)) : Netrc :=
  entries.foldl (fun m e => m.WithLogin e.1 e.2.1 e.2.2) (NetrcNew format)

theorem foldl_withLogin (entries : List (List Char × List Char × List Char)) :
    ∀ m : Netrc,
      (entries.foldl (fun m e => m.WithLogin e.1 e.2.1 e.2.2) m).Config =
        { Logins := m.Config.Logins ++
            entries.map fun e => { machine := e.1, username := e.2.1, password := e.2.2 },
          Fmt := m.Config.Fmt } := by
  induction entries with
  | nil => intro m; simp
  | cons e es ih =>
    intro m
    rw [List.foldl_cons, ih]
    simp [Netrc.WithLogin]

theorem buildNetrc_config (format : Format)
    (entries : List (List Char × List Char × List Char)) :
    (buildNetrc format entries).Config =
      { Logins := entries.map fun e =>
          { machine := e.1, username := e.2.1, password := e.2.2 },
        Fmt := format } := by
  rw [buildNetrc, foldl_withLogin]
  rfl

/-! ## Claim theorems (netrc side) -/

/-- C7 witness: a concrete input holding one triple followed by trailing
text that is not a triple parses to exactly that triple's record. -/
theorem C7_trailing_input_tolerance_witness :
    fromConfiguration (chars "machine a login b password c xx") =
      some (groupLogins [chars "a", chars "b", chars "c"] ++
        (fromConfiguration (chars "xx")).getD []) :=
  C7_trailing_input_tolerance (chars "machine a login b password c xx")
    (chars "xx") [chars "a", chars "b", chars "c"] (by decide)

/-- C1 (counterexample): the round-trip claim fails as stated for every
configuration built solely via `WithLogin` calls: the single call
`WithLogin "a b" "u" "p"` produces a configuration whose serialized text
fails the credential grammar entirely (the space inside the machine name
splits the field across tokens), so parsing does not return the
configuration's records. -/
theorem C1_round_trip_counterexample :
    ((NetrcNew Compact).WithLogin (chars "a b") (chars "u") (chars "p")).Config.String =
        some (chars "machine a b login u password p") ∧
      fromConfiguration (chars "machine a b login u password p") = none ∧
      fromConfiguration (chars "machine a b login u password p") ≠
        some (((NetrcNew Compact).WithLogin (chars "a b") (chars "u")
          (chars "p")).Config.Logins) := by
  refine ⟨by decide, by decide, by decide⟩

/-- C1 (amended): for every configuration built solely via `WithLogin`
calls — at least one call, format `compact` or `full`, and every machine,
username and password non-empty and whitespace-free — running the credential
grammar over the serialized text yields exactly the same ordered sequence of
login records as the configuration holds. -/
theorem C1_round_trip (format : Format) (hf : format = Compact ∨ format = Full)
    (entries : List (List Char × List Char × List Char)) (hne : entries ≠ [])
    (hg : ∀ e ∈ entries,
      goodLogin { machine := e.1, username := e.2.1, password := e.2.2 }) :
    ∃ text, (buildNetrc format entries).Config.String = some text ∧
      fromConfiguration text = some ((buildNetrc format entries).Config.Logins) := by
  rw [buildNetrc_config]
  have hls : (entries.map fun e =>
      ({ machine := e.1, username := e.2.1, password := e.2.2 } : Login)) ≠ [] := by
    intro h
    exact hne (List.map_eq_nil_iff.mp h)
  have hgood : ∀ l ∈ entries.map fun e =>
      ({ machine := e.1, username := e.2.1, password := e.2.2 } : Login), goodLogin l := by
    intro l hl
    obtain ⟨e, he, rfl⟩ := List.mem_map.mp hl
    exact hg e he
  rcases hf with rfl | rfl
  · have hfn : formatFn Compact = some compactFmt := by
      simp [formatFn]
    refine ⟨chainSep ' ' (entries.map fun e =>
      { machine := e.1, username := e.2.1, password := e.2.2 }), ?_, ?_⟩
    · simp only [AutoLogin.String, hfn]
      rw [trim_flatten_eq_chainSep ' ' compactFmt compactFmt_shape _ hls hgood]
    · exact fromConfiguration_chainSep ' ' (Or.inl rfl) _ hls hgood
  · have hne' : ¬ (Full = Compact) := by decide
    have hfn : formatFn Full = some fullFmt := by
      simp [formatFn, hne']
    refine ⟨chainSep '\n' (entries.map fun e =>
      { machine := e.1, username := e.2.1, password := e.2.2 }), ?_, ?_⟩
    · simp only [AutoLogin.String, hfn]
      rw [trim_flatten_eq_chainSep '\n' fullFmt fullFmt_shape _ hls hgood]
    · exact fromConfiguration_chainSep '\n' (Or.inr rfl) _ hls hgood

/-- C1 witness: the amended round-trip at a concrete two-record
configuration in compact format. -/
theorem C1_round_trip_witness :
    ∃ text,
      (buildNetrc Compact [(chars "github.com", chars "batman", chars "gotham"),
        (chars "gitlab.com", chars "joker", chars "arkam")]).Config.String = some text ∧
      fromConfiguration text =
        some ((buildNetrc Compact [(chars "github.com", chars "batman", chars "gotham"),
          (chars "gitlab.com", chars "joker", chars "arkam")]).Config.Logins) :=
  C1_round_trip Compact (Or.inl rfl)
    [(chars "github.com", chars "batman", chars "gotham"),
      (chars "gitlab.com", chars "joker", chars "arkam")]
    (by decide) (by decide)

/-- C2 (strict field-order enforcement): parsing
`machine X password P login U` — the login and password fields swapped —
fails with an error and returns no login records, for every machine token
`X` (non-empty, whitespace-free) and arbitrary trailing content `P`, `U`:
after the machine field is consumed the grammar demands the literal `login`
and meets `password`, the triple fails, and the repetition has matched zero
triples, below its minimum of one. -/
theorem C2_swapped_fields_fail (X P U : List Char) (hX : X ≠ [])
    (hXc : ∀ c ∈ X, isSpace c = false) :
    fromConfiguration (chars "machine " ++ X ++ chars " password " ++ P ++
      chars " login " ++ U) = none := by
  have hshape : chars "machine " ++ X ++ chars " password " ++ P ++
      chars " login " ++ U =
      chars "machine" ++ ' ' :: (X ++ ([' '] ++
        (chars "password " ++ (P ++ (chars " login " ++ U))))) := by
    simp only [List.append_assoc]
    rfl
  have h1 : eatIdent (chars "machine")
      (chars "machine" ++ ' ' :: (X ++ ([' '] ++
        (chars "password " ++ (P ++ (chars " login " ++ U)))))) =
      some (chars "password " ++ (P ++ (chars " login " ++ U)), X) := by
    refine eatIdent_exact _ _ _ _ hX hXc (Or.inr ⟨' ', rfl, Or.inl rfl, ?_⟩)
    show isSpace 'p' = false
    decide
  have h2 : eatIdent (chars "login")
      (chars "password " ++ (P ++ (chars " login " ++ U))) = none := rfl
  have h3 : eatTriple
      (chars "machine" ++ ' ' :: (X ++ ([' '] ++
        (chars "password " ++ (P ++ (chars " login " ++ U)))))) = none := by
    simp only [eatTriple, All, h1, h2]
  rw [hshape]
  simp only [fromConfiguration, MapC, ManyN, manyAux, h3]
  rfl

/-- C2 witness: the repository's own invalid test input
`machine github.com password arkam login bane` is rejected. -/
theorem C2_swapped_fields_fail_witness :
    fromConfiguration (chars "machine " ++ chars "github.com" ++ chars " password " ++
      chars "arkam" ++ chars " login " ++ chars "bane") = none :=
  C2_swapped_fields_fail (chars "github.com") (chars "arkam") (chars "bane")
    (by decide) (by decide)

/-- C3 (ingestion atomicity): for every model state and input text, when the
credential grammar fails `WithFile` returns the error and produces no
updated model (the caller's model keeps its record list unchanged); and
every successful `WithFile` appends exactly the parsed records after the
existing ones, so no partial record list is ever appended. -/
theorem C3_withFile_atomic (m : Netrc) (text : List Char) :
    (fromConfiguration text = none → m.WithFile text = none) ∧
    (∀ m2, m.WithFile text = some m2 →
      ∃ logins, fromConfiguration text = some logins ∧
        m2.Config.Logins = m.Config.Logins ++ logins ∧
        m2.Config.Fmt = m.Config.Fmt) := by
  constructor
  · intro h
    simp [Netrc.WithFile, h]
  · intro m2 h
    simp only [Netrc.WithFile] at h
    cases hf : fromConfiguration text with
    | none => rw [hf] at h; cases h
    | some logins =>
      rw [hf] at h
      simp only [Option.map, Option.some_inj] at h
      exact ⟨logins, rfl, by rw [← h], by rw [← h]⟩

/-- C3 witness: ingesting the repository's invalid test input into a
non-empty model fails. -/
theorem C3_withFile_atomic_witness :
    ((NetrcNew Compact).WithLogin (chars "github.com") (chars "batman")
        (chars "gotham")).WithFile
      (chars "machine github.com password arkam login bane") = none :=
  (C3_withFile_atomic _ _).1 (by decide)

/-- C9 (serializer totality over formats): `AutoLogin.String` selects the
per-record renderer by a switch with no default branch, so for every
configuration whose format is neither `compact` nor `full` and whose login
list is non-empty the Go code dereferences a nil function and panics
(embedded as `none`); with an empty login list it returns the empty string
whatever the format. -/
theorem C9_string_totality (a : AutoLogin) :
    (a.Fmt ≠ Compact → a.Fmt ≠ Full → a.Logins ≠ [] → a.String = none) ∧
    (a.Logins = [] → a.String = some []) := by
  constructor
  · intro h1 h2 h3
    have hfn : formatFn a.Fmt = none := by
      simp [formatFn, h1, h2]
    cases hL : a.Logins with
    | nil => exact absurd hL h3
    | cons x xs => simp only [AutoLogin.String, hfn, hL]
  · intro h
    cases hfn : formatFn a.Fmt with
    | none => simp only [AutoLogin.String, hfn, h]; rfl
    | some f => simp only [AutoLogin.String, hfn, h]; rfl

/-- C9 witness: with the unknown format `junk`, a one-record configuration
panics (`none`) and an empty configuration renders the empty string. -/
theorem C9_string_totality_witness :
    AutoLogin.String
        { Logins := [{ machine := chars "m",
                       username := chars "u",
                       password := chars "p" }],
          Fmt := chars "junk" } = none ∧
      AutoLogin.String { Logins := [], Fmt := chars "junk" } = some [] :=
  ⟨(C9_string_totality
      { Logins := [{ machine := chars "m",
                     username := chars "u",
                     password := chars "p" }],
        Fmt := chars "junk" }).1 (by decide) (by decide) (by decide),
    (C9_string_totality { Logins := [], Fmt := chars "junk" }).2 rfl⟩

/-! ## MD5 (Go `crypto/md5`), bytes and hex

The MD5 digest used by both `AsSecret` functions for content-addressed
secret names, over byte sequences embedded as `List Nat`; 32-bit words are
`Nat` reduced modulo `2 ^ 32`. -/

def add32 (a b : Nat) : Nat := (a + b) % 4294967296

def not32 (x : Nat) : Nat := 4294967295 - x

def rotl32 (x s : Nat) : Nat := ((x <<< s) % 4294967296) ||| (x >>> (32 - s))

/-- The 64 MD5 round constants `floor(2^32 * abs(sin(i + 1)))`. -/
def md5K : List Nat :=
  [0xd76aa478, 0xe8c7b756, 0x242070db, 0xc1bdceee,
   0xf57c0faf, 0x4787c62a, 0xa8304613, 0xfd469501,
   0x698098d8, 0x8b44f7af, 0xffff5bb1, 0x895cd7be,
   0x6b901122, 0xfd987193, 0xa679438e, 0x49b40821,
   0xf61e2562, 0xc040b340, 0x265e5a51, 0xe9b6c7aa,
   0xd62f105d, 0x02441453, 0xd8a1e681, 0xe7d3fbc8,
   0x21e1cde6, 0xc33707d6, 0xf4d50d87, 0x455a14ed,
   0xa9e3e905, 0xfcefa3f8, 0x676f02d9, 0x8d2a4c8a,
   0xfffa3942, 0x8771f681, 0x6d9d6122, 0xfde5380c,
   0xa4beea44, 0x4bdecfa9, 0xf6bb4b60, 0xbebfbc70,
   0x289b7ec6, 0xeaa127fa, 0xd4ef3085, 0x04881d05,
   0xd9d4d039, 0xe6db99e5, 0x1fa27cf8, 0xc4ac5665,
   0xf4292244, 0x432aff97, 0xab9423a7, 0xfc93a039,
   0x655b59c3, 0x8f0ccc92, 0xffeff47d, 0x85845dd1,
   0x6fa87e4f, 0xfe2ce6e0, 0xa3014314, 0x4e0811a1,
   0xf7537e82, 0xbd3af235, 0x2ad7d2bb, 0xeb86d391]

/-- The per-round left-rotation amounts. -/
def md5S : List Nat :=
  [7, 12, 17, 22, 7, 12, 17, 22, 7, 12, 17, 22, 7, 12, 17, 22,
   5, 9, 14, 20, 5, 9, 14, 20, 5, 9, 14, 20, 5, 9, 14, 20,
   4, 11, 16, 23, 4, 11, 16, 23, 4, 11, 16, 23, 4, 11, 16, 23,
   6, 10, 15, 21, 6, 10, 15, 21, 6, 10, 15, 21, 6, 10, 15, 21]

def md5F (i b c d : Nat) : Nat :=
  if i < 16 then (b &&& c) ||| (not32 b &&& d)
  else if i < 32 then (d &&& b) ||| (not32 d &&& c)
  else if i < 48 then b ^^^ c ^^^ d
  else c ^^^ (b ||| not32 d)

def md5G (i : Nat) : Nat :=
  if i < 16 then i
  else if i < 32 then (5 * i + 1) % 16
  else if i < 48 then (3 * i + 5) % 16
  else (7 * i) % 16

def md5Step (M : List Nat) (st : Nat × Nat × Nat × Nat) (i : Nat) : Nat × Nat × Nat × Nat :=
  let f := add32 (add32 (add32 (md5F i st.2.1 st.2.2.1 st.2.2.2) st.1) (md5K.getD i 0))
    (M.getD (md5G i) 0)
  (st.2.2.2, add32 st.2.1 (rotl32 f (md5S.getD i 0)), st.2.1, st.2.2.1)

def md5Block (st : Nat × Nat × Nat × Nat) (M : List Nat) : Nat × Nat × Nat × Nat :=
  let r := (List.range 64).foldl (md5Step M) st
  (add32 r.1 st.1, add32 r.2.1 st.2.1, add32 r.2.2.1 st.2.2.1, add32 r.2.2.2 st.2.2.2)

def leWord (bytes : List Nat) (g : Nat) : Nat :=
  bytes.getD (4 * g) 0 + 256 * bytes.getD (4 * g + 1) 0 + 65536 * bytes.getD (4 * g + 2) 0 +
    16777216 * bytes.getD (4 * g + 3) 0

def blockWords (block : List Nat) : List Nat := (List.range 16).map (leWord block)

/-- Split into 64-byte blocks; the fuel (instantiated with the input length,
an upper bound on the number of blocks) keeps the recursion structural. -/
def toBlocksAux : Nat → List Nat → List (List Nat)
  | _, [] => []
  | 0, _ :: _ => []
  | fuel + 1, l => l.take 64 :: toBlocksAux fuel (l.drop 64)

def toBlocks (l : List Nat) : List (List Nat) := toBlocksAux l.length l

def toLE (n x : Nat) : List Nat := (List.range n).map fun i => x / 256 ^ i % 256

/-- MD5 padding: `0x80`, zeros to 56 mod 64, then the bit length in 8
little-endian bytes. -/
def md5Pad (msg : List Nat) : List Nat :=
  msg ++ [128] ++ List.replicate ((55 + 64 - msg.length % 64) % 64) 0 ++
    toLE 8 (8 * msg.length)

/-- The 16-byte MD5 digest of a byte sequence. -/
def md5Bytes (msg : List Nat) : List Nat :=
  let st := (toBlocks (md5Pad msg)).foldl (fun st b => md5Block st (blockWords b))
    (0x67452301, 0xefcdab89, 0x98badcfe, 0x10325476)
  toLE 4 st.1 ++ toLE 4 st.2.1 ++ toLE 4 st.2.2.1 ++ toLE 4 st.2.2.2

def hexDigit (n : Nat) : Char := (chars "0123456789abcdef").getD n '0'

/-- Lowercase hex of a byte sequence, as characters (Go `hex.EncodeToString`). -/
def hexChars (bytes : List Nat) : List Char :=
  (bytes.map fun b => [hexDigit (b / 16), hexDigit (b % 16)]).flatten

def hexDigitByte (n : Nat) : Nat := ((chars "0123456789abcdef").getD n '0').toNat

/-- Lowercase hex of a byte sequence, as ASCII bytes. -/
def hexBytes (bytes : List Nat) : List Nat :=
  (bytes.map fun b => [hexDigitByte (b / 16), hexDigitByte (b % 16)]).flatten

/-- UTF-8 encoding of one character (Go `[]byte(string)` conversion). -/
def utf8Char (c : Char) : List Nat :=
  let n := c.toNat
  if n < 0x80 then [n]
  else if n < 0x800 then [0xC0 + n / 64, 0x80 + n % 64]
  else if n < 0x10000 then [0xE0 + n / 4096, 0x80 + n / 64 % 64, 0x80 + n % 64]
  else [0xF0 + n / 262144, 0x80 + n / 4096 % 64, 0x80 + n / 64 % 64, 0x80 + n % 64]

def utf8Encode (s : List Char) : List Nat := (s.map utf8Char).flatten

/-- Go `Netrc.AsSecret`: when no name is supplied the name is derived as
`netrc-` followed by the hex MD5 digest of the serialized configuration;
the secret's value is the serialized configuration.  Returns the pair
`(name, value)`; `none` embeds the serializer's panic on an unknown
format. -/
def Netrc.AsSecret (m : Netrc) (name : List Char) : Option (List Char × List Char) :=
  (m.Config.String).map fun text =>
    (if name = [] then chars "netrc-" ++ hexChars (md5Bytes (utf8Encode text)) else name,
      text)

/-! ## The oci-login module (source: oci-login `main.go`)

Strings are embedded as byte sequences (`List Nat`).  The Go
`map[string]Auth` is embedded as an association list with unique keys
(`insertAuth` replaces the entry of an existing key in place, Go map
assignment semantics); JSON marshalling sorts the keys byte-lexicographically
exactly as Go `encoding/json` does for string-keyed maps. -/

/-- ASCII bytes of a string literal, used to transcribe Go string literals. -/
def sbytes (s : String) : List Nat := s.data.map Char.toNat

def b64Char (n : Nat) : Nat :=
  (sbytes "ABCDEFGHIJKLMNOPQRSTUVWXYZabcdefghijklmnopqrstuvwxyz0123456789+/").getD n 65

/-- Go `base64.StdEncoding.EncodeToString`: standard alphabet with `=`
padding (byte 61). -/
def base64Encode : List Nat → List Nat
  | [] => []
  | [b1] => [b64Char (b1 / 4), b64Char (b1 % 4 * 16), 61, 61]
  | [b1, b2] => [b64Char (b1 / 4), b64Char (b1 % 4 * 16 + b2 / 16), b64Char (b2 % 16 * 4), 61]
  | b1 :: b2 :: b3 :: rest =>
    b64Char (b1 / 4) :: b64Char (b1 % 4 * 16 + b2 / 16) ::
      b64Char (b2 % 16 * 4 + b3 / 64) :: b64Char (b3 % 64) :: base64Encode rest

/-- Go `encoding/json` string escaping at the byte level: quote, backslash,
newline, carriage return, tab, other control bytes as `\u00xx`, and the
HTML-unsafe `<`, `>`, `&` as `<`, `>`, `&`. -/
def jsonEscapeByte (b : Nat) : List Nat :=
  if b = 34 then [92, 34]
  else if b = 92 then [92, 92]
  else if b = 10 then [92, 110]
  else if b = 13 then [92, 114]
  else if b = 9 then [92, 116]
  else if b < 32 || b = 60 || b = 62 || b = 38 then
    [92, 117, 48, 48, hexDigitByte (b / 16), hexDigitByte (b % 16)]
  else [b]

def jsonEscape (s : List Nat) : List Nat := (s.map jsonEscapeByte).flatten

/-- Go `ContainerAuth`: the hostname-keyed authentication map, with the
`Auth` struct's single `auth` field inlined as the entry value (the base64
credential). -/
structure ContainerAuth where
  Auths : List (List Nat × List Nat)

/-- Go `OciLogin`: the dagger module holding the accumulated configuration. -/
structure OciLogin where
  Config : ContainerAuth

/-- Go `New()`: initializes the module with an empty map. -/
def OciNew : OciLogin := { Config := { Auths := [] } }

/-- Go map assignment `m[k] = v`: replace the entry of an existing key,
append a fresh key. -/
def insertAuth : List (List Nat × List Nat) → List Nat → List Nat →
    List (List Nat × List Nat)
  | [], k, v => [(k, v)]
  | e :: rest, k, v => if e.1 = k then (k, v) :: rest else e :: insertAuth rest k v

/-- Go `OciLogin.WithAuth`: stores `base64(username ":" password)` under the
hostname, overwriting any prior value for that hostname (secret resolution,
the only failure path, is abstracted: the password plaintext is the
argument). -/
def OciLogin.WithAuth (m : OciLogin) (hostname username password : List Nat) : OciLogin :=
  { Config :=
      { Auths :=
          insertAuth m.Config.Auths hostname
            (base64Encode (username ++ (58 :: password))) } }

/-- Strict byte-lexicographic order on byte sequences (the order Go
`sort.Strings` uses on map keys inside `encoding/json`). -/
def ltBytes : List Nat → List Nat → Bool
  | [], [] => false
  | [], _ :: _ => true
  | _ :: _, [] => false
  | a :: as, b :: bs => if a < b then true else if b < a then false else ltBytes as bs

/-- Non-strict key order on map entries: `e1`'s key not above `e2`'s. -/
def entLE (e1 e2 : List Nat × List Nat) : Prop := ltBytes e2.1 e1.1 = false

instance : DecidableRel entLE := fun e1 e2 => Bool.decEq (ltBytes e2.1 e1.1) false

/-- Keys emitted in sorted order, as Go `encoding/json` marshals a
string-keyed map. -/
def sortAuths (auths : List (List Nat × List Nat)) : List (List Nat × List Nat) :=
  List.insertionSort entLE auths

/-- One marshalled map entry `"host":{"auth":"value"}`. -/
def entryRender (e : List Nat × List Nat) : List Nat :=
  [34] ++ jsonEscape e.1 ++ sbytes "\":\x7b\"auth\":\"" ++ jsonEscape e.2 ++
    sbytes "\"\x7d"

/-- Go `json.Marshal` of `ContainerAuth`: the fixed object shape
`{"auths":{...}}` with the map's keys in byte-lexicographic order. -/
def marshalContainerAuth (cfg : ContainerAuth) : List Nat :=
  sbytes "\x7b\"auths\":\x7b" ++
    List.intercalate [44] ((sortAuths cfg.Auths).map entryRender) ++ sbytes "\x7d\x7d"

/-- Go `OciLogin.AsConfig`: the marshalled configuration (the bytes written
to `oci-config.json`). -/
def OciLogin.AsConfig (m : OciLogin) : List Nat := marshalContainerAuth m.Config

/-- Go `OciLogin.AsSecret`: when no name is supplied the name is derived as
`oci-config-` followed by the hex MD5 digest of the marshalled
configuration; the secret's value is the marshalled configuration. -/
def OciLogin.AsSecret (m : OciLogin) (name : List Nat) : List Nat × List Nat :=
  let config := marshalContainerAuth m.Config
  (if name = [] then sbytes "oci-config-" ++ hexBytes (md5Bytes config) else name, config)

/-! ## Order and map lemmas for the oci-login model -/

theorem ltBytes_asymm : ∀ {a b : List Nat}, ltBytes a b = true → ltBytes b a = false := by
  intro a
  induction a with
  | nil =>
    intro b h
    cases b with
    | nil => cases h
    | cons c cs => rfl
  | cons x xs ih =>
    intro b h
    cases b with
    | nil => cases h
    | cons c cs =>
      simp only [ltBytes] at h ⊢
      by_cases hxc : x < c
      · rw [if_neg (by omega), if_pos hxc]
      · rw [if_neg hxc] at h
        by_cases hcx : c < x
        · rw [if_pos hcx] at h; cases h
        · rw [if_neg hcx] at h
          rw [if_neg hcx, if_neg hxc]
          exact ih h

theorem ltBytes_trans : ∀ {a b c : List Nat},
    ltBytes a b = true → ltBytes b c = true → ltBytes a c = true := by
  intro a
  induction a with
  | nil =>
    intro b c h1 h2
    cases b with
    | nil => cases h1
    | cons y ys =>
      cases c with
      | nil => cases h2
      | cons z zs => rfl
  | cons x xs ih =>
    intro b c h1 h2
    cases b with
    | nil => cases h1
    | cons y ys =>
      cases c with
      | nil => cases h2
      | cons z zs =>
        simp only [ltBytes] at h1 h2 ⊢
        by_cases hxy : x < y
        · by_cases hyz : y < z
          · rw [if_pos (by omega)]
          · rw [if_neg hyz] at h2
            by_cases hzy : z < y
            · rw [if_pos hzy] at h2; cases h2
            · have : y = z := by omega
              subst this
              rw [if_pos hxy]
        · rw [if_neg hxy] at h1
          by_cases hyx : y < x
          · rw [if_pos hyx] at h1; cases h1
          · rw [if_neg hyx] at h1
            have hxeq : x = y := by omega
            subst hxeq
            by_cases hxz : x < z
            · rw [if_pos hxz]
            · rw [if_neg hxz] at h2 ⊢
              by_cases hzx : z < x
              · rw [if_pos hzx] at h2; cases h2
              · rw [if_neg hzx] at h2 ⊢
                exact ih h1 h2

theorem ltBytes_conn : ∀ {a b : List Nat},
    ltBytes a b = false → ltBytes b a = false → a = b := by
  intro a
  induction a with
  | nil =>
    intro b h1 _
    cases b with
    | nil => rfl
    | cons c cs => cases h1
  | cons x xs ih =>
    intro b h1 h2
    cases b with
    | nil => cases h2
    | cons y ys =>
      simp only [ltBytes] at h1 h2
      by_cases hxy : x < y
      · rw [if_pos hxy] at h1; cases h1
      · rw [if_neg hxy] at h1
        by_cases hyx : y < x
        · rw [if_pos hyx] at h2; cases h2
        · rw [if_neg hyx] at h1
          rw [if_neg hyx, if_neg hxy] at h2
          have : x = y := by omega
          subst this
          rw [ih h1 h2]

instance : IsTotal (List Nat × List Nat) entLE := by
  refine ⟨fun a b => ?_⟩
  by_cases h : ltBytes b.1 a.1 = true
  · exact Or.inr (ltBytes_asymm h)
  · exact Or.inl (Bool.eq_false_iff.mpr h)

instance : IsTrans (List Nat × List Nat) entLE := by
  refine ⟨fun a b c h1 h2 => ?_⟩
  unfold entLE at h1 h2 ⊢
  by_cases hca : ltBytes c.1 a.1 = true
  · by_cases hab : ltBytes a.1 b.1 = true
    · rw [ltBytes_trans hca hab] at h2; cases h2
    · have : a.1 = b.1 := ltBytes_conn (by simpa using hab) h1
      rw [← this, hca] at h2
      cases h2
  · simpa using hca

/-- Strict key order on map entries. -/
def entLT (e1 e2 : List Nat × List Nat) : Prop := ltBytes e1.1 e2.1 = true

instance : IsAntisymm (List Nat × List Nat) entLT := by
  refine ⟨fun a b h1 h2 => ?_⟩
  unfold entLT at h1 h2
  rw [ltBytes_asymm h1] at h2
  cases h2

/-- The invariant every reachable auth map satisfies: hostnames are unique
(Go map keys). -/
def KeysNodup (auths : List (List Nat × List Nat)) : Prop :=
  (auths.map Prod.fst).Nodup

instance (auths : List (List Nat × List Nat)) : Decidable (KeysNodup auths) := by
  unfold KeysNodup; infer_instance

def lookupKey (k : List Nat) : List (List Nat × List Nat) → Option (List Nat)
  | [] => none
  | e :: es => if e.1 = k then some e.2 else lookupKey k es

def countKey (k : List Nat) (l : List (List Nat × List Nat)) : Nat :=
  (l.filter fun e => e.1 == k).length

theorem lookupKey_insertAuth (l : List (List Nat × List Nat)) (k v : List Nat) :
    lookupKey k (insertAuth l k v) = some v := by
  induction l with
  | nil => simp [insertAuth, lookupKey]
  | cons e es ih =>
    by_cases h : e.1 = k
    · simp [insertAuth, h, lookupKey]
    · simp [insertAuth, h, lookupKey, ih]

theorem insertAuth_keys_sub (l : List (List Nat × List Nat)) (k v : List Nat) :
    ∀ x ∈ (insertAuth l k v).map Prod.fst, x ∈ l.map Prod.fst ∨ x = k := by
  induction l with
  | nil => simp [insertAuth]
  | cons e es ih =>
    intro x hx
    by_cases h : e.1 = k
    · simp only [insertAuth, if_pos h, List.map_cons, List.mem_cons] at hx
      rcases hx with rfl | hx
      · exact Or.inr rfl
      · exact Or.inl (by simp [hx])
    · simp only [insertAuth, if_neg h, List.map_cons, List.mem_cons] at hx
      rcases hx with rfl | hx
      · exact Or.inl (by simp)
      · rcases ih x hx with h' | h'
        · exact Or.inl (by simp [h'])
        · exact Or.inr h'

theorem insertAuth_nodup {l : List (List Nat × List Nat)} (h : KeysNodup l)
    (k v : List Nat) : KeysNodup (insertAuth l k v) := by
  induction l with
  | nil => simp [insertAuth, KeysNodup]
  | cons e es ih =>
    unfold KeysNodup at h ⊢
    simp only [List.map_cons, List.nodup_cons] at h
    obtain ⟨he, hes⟩ := h
    by_cases hk : e.1 = k
    · simp only [insertAuth, if_pos hk, List.map_cons, List.nodup_cons]
      exact ⟨by rw [← hk]; exact he, hes⟩
    · simp only [insertAuth, if_neg hk, List.map_cons, List.nodup_cons]
      refine ⟨?_, ih hes⟩
      intro hmem
      rcases insertAuth_keys_sub es k v e.1 hmem with h' | h'
      · exact he h'
      · exact hk h'

theorem countKey_insertAuth {l : List (List Nat × List Nat)} (h : KeysNodup l)
    (k v : List Nat) : countKey k (insertAuth l k v) = 1 := by
  induction l with
  | nil => simp [insertAuth, countKey]
  | cons e es ih =>
    unfold KeysNodup at h
    simp only [List.map_cons, List.nodup_cons] at h
    obtain ⟨he, hes⟩ := h
    by_cases hk : e.1 = k
    · simp only [insertAuth, if_pos hk, countKey, List.filter_cons]
      rw [if_pos (by simp)]
      have : (es.filter fun e => e.1 == k).length = 0 := by
        rw [List.length_eq_zero, List.filter_eq_nil_iff]
        intro a ha hak
        apply he
        rw [hk, ← show a.1 = k by simpa using hak]
        exact List.mem_map_of_mem Prod.fst ha
      simp only [List.length_cons, this]
    · simp only [insertAuth, if_neg hk, countKey, List.filter_cons]
      rw [if_neg (by simpa using hk)]
      exact ih hes

theorem sortAuths_strict_sorted {auths : List (List Nat × List Nat)}
    (h : KeysNodup auths) : (sortAuths auths).Pairwise entLT := by
  have hsorted : List.Sorted entLE (sortAuths auths) :=
    List.sorted_insertionSort entLE auths
  have hperm : (sortAuths auths).Perm auths := List.perm_insertionSort entLE auths
  have hnodup : ((sortAuths auths).map Prod.fst).Nodup :=
    ((hperm.map Prod.fst).nodup_iff).mpr h
  have hne : (sortAuths auths).Pairwise fun e1 e2 => e1.1 ≠ e2.1 :=
    List.pairwise_map.mp hnodup
  have hand := List.Pairwise.and hsorted hne
  refine hand.imp ?_
  intro a b hab
  obtain ⟨hle, hne'⟩ := hab
  unfold entLE at hle
  unfold entLT
  by_cases hab' : ltBytes a.1 b.1 = true
  · exact hab'
  · exact absurd (ltBytes_conn (Bool.eq_false_iff.mpr hab') hle) hne'

theorem sortAuths_perm_eq {a1 a2 : List (List Nat × List Nat)}
    (h1 : KeysNodup a1) (h2 : KeysNodup a2) (hp : a1.Perm a2) :
    sortAuths a1 = sortAuths a2 :=
  List.eq_of_perm_of_sorted
    ((List.perm_insertionSort entLE a1).trans
      (hp.trans (List.perm_insertionSort entLE a2).symm))
    (sortAuths_strict_sorted h1) (sortAuths_strict_sorted h2)

/-! ## Claim theorems (oci-login side) -/

/-- C4 (registry last-write-wins): for every auth map (hostnames unique, the
Go map invariant), writing `docker.io` twice leaves exactly one entry under
that key, holding `base64(u2 ":" p2)`: the earlier credential is fully
replaced. -/
theorem C4_registry_last_write_wins (m : OciLogin) (h : KeysNodup m.Config.Auths)
    (u1 p1 u2 p2 : List Nat) :
    countKey (sbytes "docker.io")
        (((m.WithAuth (sbytes "docker.io") u1 p1).WithAuth
          (sbytes "docker.io") u2 p2).Config.Auths) = 1 ∧
      lookupKey (sbytes "docker.io")
        (((m.WithAuth (sbytes "docker.io") u1 p1).WithAuth
          (sbytes "docker.io") u2 p2).Config.Auths) =
        some (base64Encode (u2 ++ (58 :: p2))) := by
  constructor
  · exact countKey_insertAuth (insertAuth_nodup h _ _) _ _
  · exact lookupKey_insertAuth _ _ _

/-- C4 witness: overwriting `docker.io` on a fresh module keeps one entry
reflecting the second credential. -/
theorem C4_registry_last_write_wins_witness :
    countKey (sbytes "docker.io")
        (((OciNew.WithAuth (sbytes "docker.io") (sbytes "joker") (sbytes "arkam")).WithAuth
          (sbytes "docker.io") (sbytes "batman") (sbytes "gotham")).Config.Auths) = 1 ∧
      lookupKey (sbytes "docker.io")
        (((OciNew.WithAuth (sbytes "docker.io") (sbytes "joker") (sbytes "arkam")).WithAuth
          (sbytes "docker.io") (sbytes "batman") (sbytes "gotham")).Config.Auths) =
        some (base64Encode (sbytes "batman" ++ (58 :: sbytes "gotham"))) :=
  C4_registry_last_write_wins OciNew (by decide) (sbytes "joker") (sbytes "arkam")
    (sbytes "batman") (sbytes "gotham")

set_option maxRecDepth 40000 in
/-- C6 (registry end-to-end): the three test credentials render to exactly
the byte string the repository's test expects. -/
theorem C6_registry_end_to_end :
    (((OciNew.WithAuth (sbytes "docker.io") (sbytes "batman")
          (sbytes "c8H96YDRENibMQ==")).WithAuth (sbytes "ghcr.io") (sbytes "joker")
        (sbytes "6VXzOeygB8KrsQ==")).WithAuth (sbytes "quay.io") (sbytes "penguin")
      (sbytes "XOs1cDjkZTHCPA==")).AsConfig =
      sbytes "\x7b\"auths\":\x7b\"docker.io\":\x7b\"auth\":\"YmF0bWFuOmM4SDk2WURSRU5pYk1RPT0=\"\x7d,\"ghcr.io\":\x7b\"auth\":\"am9rZXI6NlZYek9leWdCOEtyc1E9PQ==\"\x7d,\"quay.io\":\x7b\"auth\":\"cGVuZ3VpbjpYT3MxY0Rqa1pUSENQQT09\"\x7d\x7d\x7d" := by
  decide

/-- C8 (counterexample): `WithAuth` performs no hostname validation: calling
it with the empty hostname stores an entry under the empty key — the call is
not rejected and the entry does reach the auth map, contradicting the
claimed API-boundary rejection (the dagger `+required` annotation only
enforces that the argument is supplied, not that it is non-empty). -/
theorem C8_empty_hostname_counterexample :
    (OciNew.WithAuth [] (sbytes "batman") (sbytes "gotham")).Config.Auths =
      [([], sbytes "YmF0bWFuOmdvdGhhbQ==")] := by decide

/-- C8 (amended): calling `WithAuth` with an empty hostname is accepted like
any other hostname: the entry is stored under the empty key with value
`base64(username ":" password)`; no rejection happens at this API
boundary. -/
theorem C8_empty_hostname_accepted (m : OciLogin) (u p : List Nat) :
    lookupKey [] ((m.WithAuth [] u p).Config.Auths) =
      some (base64Encode (u ++ (58 :: p))) :=
  lookupKey_insertAuth _ _ _

/-- C10 (canonical registry key order): for every auth map with unique
hostnames, the marshalled JSON emits the hostnames in strictly ascending
byte-lexicographic order, and any two maps with the same contents (any
permutation of the same entries) marshal to the same byte string: the
output is canonical in the map's contents, not its insertion history. -/
theorem C10_canonical_json (auths : List (List Nat × List Nat)) (h : KeysNodup auths) :
    ((sortAuths auths).map Prod.fst).Pairwise (fun a b => ltBytes a b = true) ∧
      ∀ auths2, KeysNodup auths2 → auths.Perm auths2 →
        marshalContainerAuth { Auths := auths } =
          marshalContainerAuth { Auths := auths2 } := by
  constructor
  · exact List.pairwise_map.mpr (sortAuths_strict_sorted h)
  · intro auths2 h2 hp
    unfold marshalContainerAuth
    rw [show sortAuths ({ Auths := auths } : ContainerAuth).Auths = sortAuths auths2 from
      sortAuths_perm_eq h h2 hp]

/-- C10 witness: two insertion orders of the same two entries marshal
identically, with sorted keys. -/
theorem C10_canonical_json_witness :
    ((sortAuths [(sbytes "quay.io", sbytes "QQ=="), (sbytes "docker.io", sbytes "ZZ==")]).map
      Prod.fst).Pairwise (fun a b => ltBytes a b = true) ∧
      marshalContainerAuth
          { Auths := [(sbytes "quay.io", sbytes "QQ=="), (sbytes "docker.io", sbytes "ZZ==")] } =
        marshalContainerAuth
          { Auths := [(sbytes "docker.io", sbytes "ZZ=="), (sbytes "quay.io", sbytes "QQ==")] } :=
  ⟨(C10_canonical_json [(sbytes "quay.io", sbytes "QQ=="), (sbytes "docker.io", sbytes "ZZ==")]
      (by decide)).1,
    (C10_canonical_json [(sbytes "quay.io", sbytes "QQ=="), (sbytes "docker.io", sbytes "ZZ==")]
      (by decide)).2
      [(sbytes "docker.io", sbytes "ZZ=="), (sbytes "quay.io", sbytes "QQ==")]
      (by decide) (by decide)⟩

set_option maxRecDepth 40000 in
/-- C5 (content-addressed naming): with no explicit name, `AsSecret` derives
the secret name as the fixed module prefix followed by the hex MD5 digest of
the exact serialized bytes (for both the netrc and the oci-login modules);
hence any two configurations with identical serialized content yield the
same derived name; and at a concrete two-record configuration the derived
name evaluates to the digest of its serialization while swapping the two
records changes the derived name. -/
theorem C5_content_addressed_naming :
    (∀ (m : Netrc) (t : List Char), m.Config.String = some t →
      m.AsSecret [] = some (chars "netrc-" ++ hexChars (md5Bytes (utf8Encode t)), t)) ∧
    (∀ (m1 m2 : Netrc) (t : List Char), m1.Config.String = some t →
      m2.Config.String = some t → m1.AsSecret [] = m2.AsSecret []) ∧
    (∀ m : OciLogin, m.AsSecret [] =
      (sbytes "oci-config-" ++ hexBytes (md5Bytes (marshalContainerAuth m.Config)),
        marshalContainerAuth m.Config)) ∧
    (buildNetrc Compact [(chars "github.com", chars "batman", chars "gotham"),
        (chars "gitlab.com", chars "joker", chars "arkam")]).AsSecret [] =
      some (chars "netrc-bf3c8125773c7aeb2c7a4faa4670896c",
        chars "machine github.com login batman password gotham\nmachine gitlab.com login joker password arkam") ∧
    ((buildNetrc Compact [(chars "gitlab.com", chars "joker", chars "arkam"),
        (chars "github.com", chars "batman", chars "gotham")]).AsSecret []).map Prod.fst ≠
      ((buildNetrc Compact [(chars "github.com", chars "batman", chars "gotham"),
        (chars "gitlab.com", chars "joker", chars "arkam")]).AsSecret []).map Prod.fst := by
  refine ⟨?_, ?_, ?_, ?_, ?_⟩
  · intro m t h
    simp [Netrc.AsSecret, h]
  · intro m1 m2 t h1 h2
    simp [Netrc.AsSecret, h1, h2]
  · intro m
    rfl
  · decide
  · decide

set_option maxRecDepth 40000 in
/-- C5 witness: the derived name formula applied at a concrete one-record
configuration. -/
theorem C5_content_addressed_naming_witness :
    ((NetrcNew Compact).WithLogin (chars "github.com") (chars "batman")
        (chars "gotham")).AsSecret [] =
      some (chars "netrc-" ++ hexChars (md5Bytes (utf8Encode
          (chars "machine github.com login batman password gotham"))),
        chars "machine github.com login batman password gotham") :=
  C5_content_addressed_naming.1
    ((NetrcNew Compact).WithLogin (chars "github.com") (chars "batman") (chars "gotham"))
    (chars "machine github.com login batman password gotham") (by decide)

/-! ## Sanity checks against the repository's own test vectors

The inputs of the netrc and oci-login test modules, evaluated on the
embedding. -/

example :
    fromConfiguration (chars "machine github.com login batman password gotham") =
      some [{ machine := chars "github.com", username := chars "batman",
              password := chars "gotham" }] := by decide

example : fromConfiguration (chars "machine github.com password arkam login bane") = none := by
  decide

example :
    fromConfiguration
        (chars "machine github.com login batman password gotham\nmachine gitlab.com\nlogin joker\npassword arkam") =
      some [{ machine := chars "github.com", username := chars "batman",
              password := chars "gotham" },
            { machine := chars "gitlab.com", username := chars "joker",
              password := chars "arkam" }] := by decide

example :
    AutoLogin.String
        { Logins := [{ machine := chars "github.com",
                       username := chars "batman",
                       password := chars "gotham" }],
          Fmt := Compact } =
      some (chars "machine github.com login batman password gotham") := by decide

example :
    base64Encode (sbytes "batman" ++ (58 :: sbytes "c8H96YDRENibMQ==")) =
      sbytes "YmF0bWFuOmM4SDk2WURSRU5pYk1RPT0=" := by decide


